import Mathlib

/-!
Verification of the AI-JobOffers-Analyzer extraction-and-enrichment pipeline.

The Python sources are shallowly embedded: pure functions become Lean
functions, the SQLite-backed store becomes an explicit table value, the
asyncio batch machinery becomes explicit state passing, and the semaphore
discipline becomes a small-step transition system.  Each definition is
translated from the corresponding Python function and keeps its name where
Lean allows it (leading underscores are dropped).
-/

namespace JobAnalyzer

/-- Record type of `src_common/common_utils.py::JobOffer` (a pydantic model).
The `date` field is abstracted to a natural-number timestamp. -/
structure JobOffer where
  name : String
  date : Nat
  source : String
  url : String
  description : String
  analysis : String := ""
  offer_rating : Int := 0
  candidate_rating : Int := 0
deriving Repr, DecidableEq

/-! ## Persistent store (`src/database.py::DatabaseManager`)

`create_jobs_database` declares `url TEXT NOT NULL UNIQUE`; a table value
carries its rows and the AUTOINCREMENT counter. -/

/-- One row of the SQLite table created by `create_jobs_database`. -/
structure DbRow where
  id : Nat
  source : String
  name : String
  url : String
  description : String
  analysis : String
  offer_rating : Int
  candidate_rating : Int
deriving Repr, DecidableEq

/-- State of the jobs table: the rows plus the next AUTOINCREMENT id. -/
structure JobsTable where
  rows : List DbRow
  nextId : Nat
deriving Repr, DecidableEq

/-- Embedding of `DatabaseManager.insert_job_offer`.  The INSERT succeeds
exactly when no existing row carries the same `url` (the UNIQUE constraint);
a violation raises `sqlite3.IntegrityError`, which the `except sqlite3.Error`
clause absorbs and logs.  The returned Bool records whether the error branch
(logging) ran; the function never propagates an exception. -/
def insert_job_offer (t : JobsTable) (job : JobOffer) : JobsTable × Bool :=
  if t.rows.any (fun r => r.url == job.url) then
    (t, true)
  else
    ({ rows := t.rows ++
        [{ id := t.nextId, source := job.source, name := job.name,
           url := job.url, description := job.description,
           analysis := job.analysis, offer_rating := job.offer_rating,
           candidate_rating := job.candidate_rating }],
       nextId := t.nextId + 1 }, false)

/-- Number of rows of `t` holding the url `u`. -/
def countUrl (t : JobsTable) (u : String) : Nat :=
  (t.rows.filter (fun r => r.url == u)).length

/-! ## SQLite `LIKE` (used by `DatabaseManager.search_jobs`)

`search_jobs` runs `SELECT * FROM ... WHERE url LIKE ?` with the pattern
`"%" + job_offer.url + "%"`.  SQLite's default `LIKE` is case-insensitive
for the ASCII range, `%` matches any character sequence and `_` any single
character. -/

/-- Fold an ASCII upper-case letter to lower case (SQLite `LIKE` folding). -/
def asciiLower (c : Char) : Char :=
  if 'A' ≤ c ∧ c ≤ 'Z' then Char.ofNat (c.toNat + 32) else c

/-- SQLite `LIKE` pattern matching over character lists: `%` matches any
character sequence (the rest of the pattern must match some suffix of the
text), `_` matches exactly one character, and any other pattern character
matches a text character ASCII case-insensitively.  Recursion is structural
on the pattern. -/
def likeMatch : List Char → List Char → Bool
  | [], t => t.isEmpty
  | c :: p, t =>
    if c = '%' then
      t.tails.any (fun s => likeMatch p s)
    else
      match t with
      | [] => false
      | d :: t2 => (c == '_' || asciiLower c == asciiLower d) && likeMatch p t2

/-- Embedding of `DatabaseManager.search_jobs`: rows whose `url` column
LIKE-matches `'%' + job_offer.url + '%'`. -/
def search_jobs (t : JobsTable) (job : JobOffer) : List DbRow :=
  t.rows.filter (fun r => likeMatch ("%" ++ job.url ++ "%").data r.url.data)

/-- Embedding of `PageOperationsAsync.filter_only_not_analyzed_urls`
(`src_async/sites/common_async.py`): for each discovered url build a blank
`JobOffer` carrying it and keep the url exactly when `search_jobs` returns
no row. -/
def filter_only_not_analyzed_urls (t : JobsTable) (urls : List String) :
    List String :=
  urls.filter (fun url =>
    let job_obj : JobOffer :=
      { name := "", date := 0, source := "", url := url, description := "" }
    (search_jobs t job_obj).length == 0)

/-- Statement of claim C10's filter, written from the claim's words: keep a
discovered url exactly when no stored row's url contains it as a (case
sensitive, literal) substring. -/
def filterBySubstring (t : JobsTable) (urls : List String) : List String :=
  urls.filter (fun u => !(t.rows.any (fun r => decide (u.data <:+: r.url.data))))

/-! ## Description extraction retry loop
(`PageOperationsAsync._read_job_descritpion`, `common_async.py`)

One attempt of `self._job_description_extractor_pattern(page)` either raises
`PlaywrightTimeoutError` or returns an `Optional[str]`.  `behavior i` gives
the outcome of attempt number `i`. -/

/-- Outcome of one extractor attempt: a timeout exception, or a clean return
(`none` models Python `None`, `some s` a string, possibly empty). -/
inductive ExtractOutcome where
  | timeout
  | result (r : Option String)
deriving Repr, DecidableEq

/-- Python truthiness of an `Optional[str]`: `None` and `""` are falsy. -/
def pyTruthy : Option String → Bool
  | none => false
  | some s => !s.isEmpty

/-- Result of the retry loop: the returned description (Python returns the
truthy string, or implicitly `None` after the loop), the number of extractor
attempts made, and the number of page reloads performed. -/
structure ReadResult where
  description : Option String
  attemptsMade : Nat
  reloads : Nat
deriving Repr, DecidableEq

/-- One pass of the `for i in range(retry_attempts)` loop of
`_read_job_descritpion`, from attempt index `i` with the given number of
iterations remaining.  On `PlaywrightTimeoutError` the page is reloaded
unless this was the last iteration; on a clean return the loop exits with
the value exactly when it is truthy. -/
def readLoop (behavior : Nat → ExtractOutcome) (total : Nat) :
    Nat → Nat → ReadResult
  | _, 0 => { description := none, attemptsMade := 0, reloads := 0 }
  | i, remaining + 1 =>
    match behavior i with
    | .timeout =>
      let reloadHere := if i ≠ total - 1 then 1 else 0
      let rest := readLoop behavior total (i + 1) remaining
      { description := rest.description,
        attemptsMade := rest.attemptsMade + 1,
        reloads := rest.reloads + reloadHere }
    | .result r =>
      if pyTruthy r then
        { description := r, attemptsMade := 1, reloads := 0 }
      else
        let rest := readLoop behavior total (i + 1) remaining
        { description := rest.description,
          attemptsMade := rest.attemptsMade + 1,
          reloads := rest.reloads }

/-- Embedding of `_read_job_descritpion` (its Python default is
`retry_attempts = 3`; the function is total, so the retry loop always
terminates). -/
def read_job_descritpion (behavior : Nat → ExtractOutcome)
    (retry_attempts : Nat := 3) : ReadResult :=
  readLoop behavior retry_attempts 0 retry_attempts

/-! ## List-page discovery (`PageOperationsAsync.extract_jobs_urls` and
`scroll_and_collect`, `common_async.py`) -/

/-- Pure tail of `scroll_and_collect`: the strings collected by the scroll
loop are deduplicated with `list(set(extracted_data))`.  CPython's set
iteration order is unspecified; the conversion is modelled with
`List.dedup`. -/
def scroll_and_collect (extracted_data : List String) : List String :=
  extracted_data.dedup

/-- Embedding of the result-collection loop of `extract_jobs_urls`: each
seed's `__extract_urls` task yields either a url list or `None` (its
`except Exception` clause logs the error and falls off the end), and the
per-seed lists are concatenated with `urls.extend(r)`. -/
def extract_jobs_urls (seedResults : List (Option (List String))) :
    List String :=
  seedResults.foldl
    (fun acc r =>
      match r with
      | some l => acc ++ l
      | none => acc) []

/-! ## Site adapter classes (`justjoinit_async.py`, `pracujpl_async.py`,
`hexagon_async.py`) -/

/-- The two `@abstractmethod` members of `PageOperationsAsync`
(`common_async.py`): `_url_extractor_pattern` and
`_job_description_extractor_pattern`. -/
def abstractPatternMethods : List String :=
  ["_url_extractor_pattern", "_job_description_extractor_pattern"]

/-- The three concrete site adapter subclasses of `PageOperationsAsync`. -/
inductive SiteAdapter where
  | justJoinIt
  | pracujPl
  | hexagon
deriving Repr, DecidableEq

/-- Names of the methods each adapter class body defines, read off the
three source files. -/
def ownMethods : SiteAdapter → List String
  | .justJoinIt =>
    ["__init__", "url_extractor_pattern",
     "job_description_extractor_pattern", "perform_full_extraction"]
  | .pracujPl =>
    ["__init__", "get_max_page_number", "_url_extractor_pattern",
     "_job_description_extractor_pattern", "perform_full_extraction",
     "_canon_key_and_id", "dedupe_pracuj_urls"]
  | .hexagon =>
    ["__init__", "url_extractor_pattern",
     "job_description_extractor_pattern", "perform_full_extraction"]

/-- ABCMeta's instantiation condition: a subclass of the abstract base can
be constructed (and have the orchestrator dispatch its patterns) exactly
when it overrides every abstract method by name. -/
def implementsAbstractPatterns (c : SiteAdapter) : Bool :=
  abstractPatternMethods.all (fun m => (ownMethods c).contains m)

/-! ## Worker-limit gate of `extract_jobs_details_from_urls`
(`common_async.py`)

`process_url` runs `async with sem:` (the `asyncio.Semaphore(max_concurrency)`),
then opens its page, extracts, and closes the page in a `finally` block still
inside the semaphore block.  The cooperative scheduling of the per-URL tasks
is modelled as a small-step transition system. -/

/-- Phase of one per-URL task: `waiting` before `async with sem`, `acquired`
after entering the semaphore but before the page is opened, `pageOpen`
while its page is open (the fetching state), `pageClosed` after
`await page.close()` but before the semaphore block exits, and `done`
after the semaphore is released. -/
inductive TaskPhase where
  | waiting
  | acquired
  | pageOpen
  | pageClosed
  | done
deriving Repr, DecidableEq

/-- State of one batch: the semaphore counter and the phase of each task. -/
structure PoolState where
  sem : Nat
  tasks : List TaskPhase
deriving Repr, DecidableEq

/-- Tasks currently holding the semaphore. -/
def holdsSem : TaskPhase → Bool
  | .acquired => true
  | .pageOpen => true
  | .pageClosed => true
  | _ => false

/-- Tasks currently in the fetching state (their page is open). -/
def isFetching : TaskPhase → Bool
  | .pageOpen => true
  | _ => false

/-- Cooperative steps of the per-URL tasks: entering the semaphore is
possible only while the counter is positive (`asyncio.Semaphore.acquire`
blocks at zero); the page is opened and closed strictly inside the
semaphore block; the counter is incremented only when the block exits,
either normally after the page was closed, or by an exception (such as
`BotManagemenetException`) unwinding out of the block, which ends the
task's fetching phase as well. -/
inductive PoolStep : PoolState → PoolState → Prop where
  | acquire (s : PoolState) (i : Nat) (h : i < s.tasks.length)
      (hw : s.tasks.get ⟨i, h⟩ = .waiting) (n : Nat) (hs : s.sem = n + 1) :
      PoolStep s { sem := n, tasks := s.tasks.set i .acquired }
  | openPage (s : PoolState) (i : Nat) (h : i < s.tasks.length)
      (hw : s.tasks.get ⟨i, h⟩ = .acquired) :
      PoolStep s { s with tasks := s.tasks.set i .pageOpen }
  | closePage (s : PoolState) (i : Nat) (h : i < s.tasks.length)
      (hw : s.tasks.get ⟨i, h⟩ = .pageOpen) :
      PoolStep s { s with tasks := s.tasks.set i .pageClosed }
  | release (s : PoolState) (i : Nat) (h : i < s.tasks.length)
      (hw : s.tasks.get ⟨i, h⟩ = .pageClosed) :
      PoolStep s { sem := s.sem + 1, tasks := s.tasks.set i .done }
  | abortFetch (s : PoolState) (i : Nat) (h : i < s.tasks.length)
      (hw : s.tasks.get ⟨i, h⟩ = .pageOpen) :
      PoolStep s { sem := s.sem + 1, tasks := s.tasks.set i .done }

/-- States reachable from the start of a batch with worker limit `W` and
`M` pending URLs: counter at `W`, every task waiting. -/
inductive PoolReachable (W M : Nat) : PoolState → Prop where
  | init : PoolReachable W M { sem := W, tasks := List.replicate M .waiting }
  | step {s t : PoolState} (hr : PoolReachable W M s) (hs : PoolStep s t) :
      PoolReachable W M t

/-! ## Detail-fetch batch collection (`extract_jobs_details_from_urls`) -/

/-- Terminal outcome of one `process_url` task found in the `done` set of
`asyncio.wait(..., return_when=FIRST_EXCEPTION)`: an assembled JobOffer, a
`None` return (no description found), the `BotManagemenetException`, the
`TargetClosedError`, or any other exception (logged as critical and
otherwise ignored). -/
inductive FetchOutcome where
  | ok (offer : JobOffer)
  | noOffer
  | botBlocked
  | targetClosed
  | otherError
deriving Repr, DecidableEq

/-- Offers extracted from an outcome, as appended to `results`. -/
def offerOf : FetchOutcome → Option JobOffer
  | .ok offer => some offer
  | _ => none

/-- Outcomes whose `except (BotManagemenetException, TargetClosedError)`
branch cancels and then awaits the pending tasks. -/
def isCancelTrigger : FetchOutcome → Bool
  | .botBlocked => true
  | .targetClosed => true
  | _ => false

/-- What one batch produced: the `results` list, whether every pending task
got `task_unfinished.cancel()`, and whether the loop awaited the cancelled
tasks via `asyncio.gather(*pending, return_exceptions=True)`. -/
structure BatchResult where
  results : List JobOffer
  cancelledPending : Bool
  awaitedPending : Bool
deriving Repr, DecidableEq

/-- Embedding of the single collection pass of
`extract_jobs_details_from_urls` (the `while counter < 1` loop runs once):
the `for task in done:` loop appends each JobOffer result, skips `None`,
and on `BotManagemenetException` / `TargetClosedError` cancels and awaits
every pending task; every exception raised by `task.result()` is caught
inside the loop, and after the pass the function returns `results`. -/
def extract_jobs_details_from_urls (done : List FetchOutcome) : BatchResult :=
  done.foldl
    (fun acc o =>
      match o with
      | .ok offer => { acc with results := acc.results ++ [offer] }
      | .noOffer => acc
      | .botBlocked =>
        { acc with cancelledPending := true, awaitedPending := true }
      | .targetClosed =>
        { acc with cancelledPending := true, awaitedPending := true }
      | .otherError => acc)
    { results := [], cancelledPending := false, awaitedPending := false }

/-- What the caller of `perform_full_extraction` can observe: either the
BotBlocked condition, or a plain list of offers. -/
inductive Surfaced where
  | botBlockedSignal
  | value (offers : List JobOffer)
deriving Repr, DecidableEq

/-- Embedding of the tail of `perform_full_extraction` (identical in all
three adapters): `jobs_data = await ...extract_jobs_details_from_urls(urls)`
then `return jobs_data or []`; `@logger.catch(reraise=False, default=[])`
would turn even an escaping exception into `[]`, so the caller always
receives a plain list. -/
def perform_full_extraction (done : List FetchOutcome) : Surfaced :=
  Surfaced.value (extract_jobs_details_from_urls done).results

/-- Statement of claim C1's surfacing behavior, written from the claim's
words: when any fetch of the batch signals BotBlocked, the batch result
surfaced to the caller is the BotBlocked condition itself, not a list. -/
def performFullExtractionClaim (done : List FetchOutcome) : Surfaced :=
  if done.any (fun o => o == .botBlocked) then Surfaced.botBlockedSignal
  else Surfaced.value (done.filterMap offerOf)

/-! ## Model-response repair (`src_common/ai_analyzer.py` and
`main-async.py`, `clean_deepseek_response`) -/

/-- Index of the first occurrence of `needle` in the haystack, scanning left
to right (the leftmost match found by `re.search`). -/
def findSubIdx (needle : List Char) : List Char → Option Nat
  | [] => if needle.isEmpty then some 0 else none
  | c :: rest =>
    if needle.isPrefixOf (c :: rest) then some 0
    else (findSubIdx needle rest).map (· + 1)

/-- Characters matched by Python's `\s` (ASCII portion). -/
def pySpace (c : Char) : Bool :=
  c = ' ' || c = '\t' || c = '\n' || c = '\x0d' ||
    c = Char.ofNat 11 || c = Char.ofNat 12

/-- Iterated removal step for `re.sub(r"<think>.*?</think>\s*", "", s,
flags=re.DOTALL)`: find the leftmost `<think>`, the earliest `</think>`
after it (non-greedy `.*?`), drop the block plus the following whitespace
run, keep the prefix, and continue in the remainder — exactly re.sub's
left-to-right non-overlapping scan. -/
def stripThinkAux : Nat → List Char → List Char
  | 0, cs => cs
  | fuel + 1, cs =>
    match findSubIdx "<think>".data cs with
    | none => cs
    | some i =>
      let afterOpen := cs.drop (i + 7)
      match findSubIdx "</think>".data afterOpen with
      | none => cs
      | some j =>
        cs.take i ++
          stripThinkAux fuel ((afterOpen.drop (j + 8)).dropWhile pySpace)

/-- The reasoning-block strip of `clean_deepseek_response`. -/
def stripThink (cs : List Char) : List Char :=
  stripThinkAux (cs.length + 1) cs

/-- The `re.search(r"\{.*?\}", cleaned, flags=re.DOTALL)` extraction: the
match starts at the first open brace and ends at the first close brace
after it (non-greedy); `none` when there is no such pair. -/
def extractJsonPart (cs : List Char) : Option (List Char) :=
  match cs.findIdx? (fun c => c = Char.ofNat 123) with
  | none => none
  | some i =>
    match (cs.drop (i + 1)).findIdx? (fun c => c = Char.ofNat 125) with
    | none => none
    | some j => some ((cs.drop i).take (j + 2))

/-- Does the next non-whitespace character close an object or an array? -/
def closerAfterWs (cs : List Char) : Bool :=
  match cs.dropWhile pySpace with
  | [] => false
  | c :: _ => c = Char.ofNat 125 || c = ']'

/-- Trailing-comma removal scan: outside string literals a comma whose next
non-whitespace character closes an object or array is dropped; string
literals (with backslash escapes) are copied untouched. -/
def dropTrailingCommas : Bool → Bool → List Char → List Char
  | _, _, [] => []
  | inStr, esc, c :: cs =>
    if inStr then
      if esc then c :: dropTrailingCommas true false cs
      else if c = '\\' then c :: dropTrailingCommas true true cs
      else if c = '"' then c :: dropTrailingCommas false false cs
      else c :: dropTrailingCommas true false cs
    else
      if c = '"' then c :: dropTrailingCommas true false cs
      else if c = ',' && closerAfterWs cs then dropTrailingCommas false false cs
      else c :: dropTrailingCommas false false cs

/-- Is the scan still inside an unterminated string literal at the end? -/
def openStringAtEnd : Bool → Bool → List Char → Bool
  | inStr, _, [] => inStr
  | inStr, esc, c :: cs =>
    if inStr then
      if esc then openStringAtEnd true false cs
      else if c = '\\' then openStringAtEnd true true cs
      else if c = '"' then openStringAtEnd false false cs
      else openStringAtEnd true false cs
    else if c = '"' then openStringAtEnd true false cs
    else openStringAtEnd false false cs

/-- Modelled from the spec: the third-party `json_repair.repair_json`
dependency is not part of the repository sources; per the spec it is "a
tolerant repair pass (fix trailing commas, unbalanced quoting)", modelled
as removing trailing commas and closing an unterminated string literal. -/
def repair_json (cs : List Char) : List Char :=
  let cs2 := dropTrailingCommas false false cs
  if openStringAtEnd false false cs2 then cs2 ++ ['"'] else cs2

/-- JSON values as produced by `json.loads` (numbers restricted to the
integers, which is all the rating schema uses). -/
inductive Json where
  | null
  | bool (b : Bool)
  | num (n : Int)
  | str (s : String)
  | arr (items : List Json)
  | obj (members : List (String × Json))
deriving Repr

/-- JSON whitespace accepted between tokens by `json.loads`. -/
def jsonWs (c : Char) : Bool :=
  c = ' ' || c = '\t' || c = '\n' || c = '\x0d'

/-- Digit run of a JSON number literal. -/
def digitSpan (cs : List Char) : List Char × List Char :=
  (cs.takeWhile Char.isDigit, cs.dropWhile Char.isDigit)

/-- Numeric value of a digit run. -/
def digitsToNat (ds : List Char) : Nat :=
  ds.foldl (fun a c => a * 10 + (c.toNat - 48)) 0

/-- Strict JSON integer literal: optional minus, no leading zero, and no
fraction or exponent part (the model is restricted to integers). -/
def parseNumber (cs : List Char) : Option (Json × List Char) :=
  let (neg, cs1) : Bool × List Char :=
    match cs with
    | '-' :: rest => (true, rest)
    | _ => (false, cs)
  match digitSpan cs1 with
  | ([], _) => none
  | (d :: ds, rest) =>
    if d = '0' && !ds.isEmpty then none
    else
      match rest with
      | '.' :: _ => none
      | 'e' :: _ => none
      | 'E' :: _ => none
      | _ =>
        let n : Int := Int.ofNat (digitsToNat (d :: ds))
        some (.num (if neg then -n else n), rest)

/-- Simple escape characters accepted after a backslash in a JSON string. -/
def escChar (c : Char) : Option Char :=
  if c = '"' then some '"'
  else if c = '\\' then some '\\'
  else if c = '/' then some '/'
  else if c = 'b' then some (Char.ofNat 8)
  else if c = 'f' then some (Char.ofNat 12)
  else if c = 'n' then some '\n'
  else if c = 'r' then some '\x0d'
  else if c = 't' then some '\t'
  else none

/-- String body after the opening quote: plain characters up to the closing
quote, with backslash escapes (`\uXXXX` is not modelled; the repository's
schema keys are ASCII). -/
def parseStringChars : Nat → List Char → Option (List Char × List Char)
  | 0, _ => none
  | fuel + 1, cs =>
    match cs with
    | [] => none
    | c :: rest =>
      if c = '"' then some ([], rest)
      else if c = '\\' then
        match rest with
        | [] => none
        | e :: rest2 =>
          match escChar e with
          | none => none
          | some ec =>
            (parseStringChars fuel rest2).map (fun p => (ec :: p.1, p.2))
      else (parseStringChars fuel rest).map (fun p => (c :: p.1, p.2))

mutual

/-- Strict recursive-descent `json.loads` over character lists (fuelled;
`jsonLoads` supplies ample fuel).  Rejects trailing commas and any other
deviation from JSON syntax. -/
def parseValue : Nat → List Char → Option (Json × List Char)
  | 0, _ => none
  | fuel + 1, cs =>
    match cs.dropWhile jsonWs with
    | [] => none
    | c :: rest =>
      if c = 'n' then
        if "ull".data.isPrefixOf rest then some (.null, rest.drop 3) else none
      else if c = 't' then
        if "rue".data.isPrefixOf rest then some (.bool true, rest.drop 3)
        else none
      else if c = 'f' then
        if "alse".data.isPrefixOf rest then some (.bool false, rest.drop 4)
        else none
      else if c = '"' then
        (parseStringChars fuel rest).map (fun p => (.str (String.mk p.1), p.2))
      else if c = '-' || c.isDigit then parseNumber (c :: rest)
      else if c = Char.ofNat 123 then
        match rest.dropWhile jsonWs with
        | d :: rest2 =>
          if d = Char.ofNat 125 then some (.obj [], rest2)
          else (parseMembers fuel (d :: rest2)).map (fun p => (.obj p.1, p.2))
        | [] => none
      else if c = '[' then
        match rest.dropWhile jsonWs with
        | d :: rest2 =>
          if d = ']' then some (.arr [], rest2)
          else (parseElems fuel (d :: rest2)).map (fun p => (.arr p.1, p.2))
        | [] => none
      else none

/-- One or more `"key": value` members followed by `}` (strict: a comma must
be followed by another member). -/
def parseMembers : Nat → List Char → Option (List (String × Json) × List Char)
  | 0, _ => none
  | fuel + 1, cs =>
    match cs.dropWhile jsonWs with
    | '"' :: rest =>
      match parseStringChars fuel rest with
      | none => none
      | some (key, afterKey) =>
        match afterKey.dropWhile jsonWs with
        | ':' :: afterColon =>
          match parseValue fuel afterColon with
          | none => none
          | some (v, afterV) =>
            match afterV.dropWhile jsonWs with
            | ',' :: more =>
              (parseMembers fuel more).map
                (fun p => ((String.mk key, v) :: p.1, p.2))
            | d :: more =>
              if d = Char.ofNat 125 then some ([(String.mk key, v)], more)
              else none
            | [] => none
        | _ => none
    | _ => none

/-- One or more array elements followed by `]` (strict). -/
def parseElems : Nat → List Char → Option (List Json × List Char)
  | 0, _ => none
  | fuel + 1, cs =>
    match parseValue fuel cs with
    | none => none
    | some (v, afterV) =>
      match afterV.dropWhile jsonWs with
      | ',' :: more => (parseElems fuel more).map (fun p => (v :: p.1, p.2))
      | ']' :: more => some ([v], more)
      | _ => none

end

/-- Embedding of `json.loads`: parse one value with ample fuel and require
that only whitespace remains. -/
def jsonLoads (cs : List Char) : Option Json :=
  match parseValue (4 * (cs.length + 1)) cs with
  | none => none
  | some (v, rest) => if (rest.dropWhile jsonWs).isEmpty then some v else none

/-- Embedding of `clean_deepseek_response` (`ai_analyzer.py`): strip the
`<think>` blocks, extract the first `\{.*?\}` match, repair it and strictly
parse; the parsed structure is returned on success, the repaired substring
when parsing still fails, and the stripped text when no JSON-looking
substring exists. -/
def clean_deepseek_response (response : String) : Sum Json String :=
  let cleaned := stripThink response.data
  match extractJsonPart cleaned with
  | some m =>
    let repaired := repair_json m
    match jsonLoads repaired with
    | some v => Sum.inl v
    | none => Sum.inr (String.mk repaired)
  | none => Sum.inr (String.mk cleaned)

/-! ## URL canonicalization and deduplication (`pracujpl_async.py`,
`PracujPl._canon_key_and_id` and `PracujPl.dedupe_pracuj_urls`) -/

/-- Lower-case an ASCII character list (`str.lower()` on the url parts the
adapter handles). -/
def lowerList (cs : List Char) : List Char :=
  cs.map asciiLower

/-- Valid scheme characters after the first letter (`urllib.parse`). -/
def validSchemeChar (c : Char) : Bool :=
  c.isAlpha || c.isDigit || c = '+' || c = '-' || c = '.'

/-- Scheme removal of `urllib.parse.urlparse`: when the text before the
first colon is a valid nonempty scheme, drop the scheme and the colon. -/
def splitScheme (cs : List Char) : List Char :=
  let pre := cs.takeWhile (fun c => c ≠ ':')
  if pre.length < cs.length ∧ pre ≠ [] ∧
      (pre.headD ' ').isAlpha ∧ pre.all validSchemeChar then
    cs.drop (pre.length + 1)
  else cs

/-- Netloc extraction of `urlparse`: present exactly when the remainder
starts with `//`, running up to the next `/`, `?` or `#`. -/
def netlocAndRest (cs : List Char) : List Char × List Char :=
  match cs with
  | '/' :: '/' :: rest =>
    let nl := rest.takeWhile (fun c => c ≠ '/' && c ≠ '?' && c ≠ '#')
    (nl, rest.drop nl.length)
  | _ => ([], cs)

/-- Path component: the remainder up to the query or fragment. -/
def pathOf (cs : List Char) : List Char :=
  cs.takeWhile (fun c => c ≠ '?' && c ≠ '#')

/-- The `(p.netloc, p.path)` pair of `urllib.parse.urlparse(url)`. -/
def urlparseNetlocPath (url : String) : List Char × List Char :=
  let cs1 := splitScheme url.data
  let (nl, rest) := netlocAndRest cs1
  (nl, pathOf rest)

/-- Strip trailing slashes (`path.rstrip("/")`). -/
def rstripSlash (cs : List Char) : List Char :=
  (cs.reverse.dropWhile (fun c => c = '/')).reverse

/-- Leftmost match of `re.search(r",oferta,(\d+)$", path, re.IGNORECASE)`
over the already lower-cased path: returns the text before the match and
the digit run, or `none`.  A position matches exactly when `,oferta,` is a
prefix there and everything after it is a nonempty digit run reaching the
end (the anchored greedy `(\d+)$`); `re.search` takes the leftmost such
position. -/
def ofertaSplitAux : List Char → Option (List Char × List Char)
  | [] => none
  | c :: cs =>
    let here := c :: cs
    let after := here.drop 8
    if ",oferta,".data.isPrefixOf here ∧ after ≠ [] ∧ after.all Char.isDigit
    then some ([], after)
    else (ofertaSplitAux cs).map (fun p => (c :: p.1, p.2))

/-- Canonical key type: `(host, core_path)`. -/
abbrev CanonKey := List Char × List Char

/-- Embedding of `PracujPl._canon_key_and_id`: lower-cased host, path with
the trailing slash stripped, the listing id extracted from the trailing
`,oferta,<digits>` (case-insensitively), and the lower-cased core path with
that suffix removed. -/
def canon_key_and_id (url : String) : CanonKey × Option Nat :=
  let (netloc, path) := urlparseNetlocPath url
  let host := lowerList netloc
  let lp := lowerList (rstripSlash path)
  match ofertaSplitAux lp with
  | some (pre, digits) => ((host, pre), some (digitsToNat digits))
  | none => ((host, lp), none)

/-- Canonical key of a url. -/
def keyOf (u : String) : CanonKey :=
  (canon_key_and_id u).1

/-- The `(idx, u, oid)` triple the dedup dictionary stores. -/
abbrev Sel := Nat × String × Option Nat

/-- Triple stored for the occurrence of `u` at input index `n`. -/
def selOf (n : Nat) (u : String) : Sel :=
  (n, u, (canon_key_and_id u).2)

/-- The three `keep` policies accepted by `dedupe_pracuj_urls`. -/
inductive KeepPolicy where
  | first
  | last
  | maxId
deriving Repr, DecidableEq

/-- Python's `x or -1` on the optional id: `None` — and also the falsy id
`0` — becomes `-1`. -/
def pyOrNeg1 : Option Nat → Int
  | none => -1
  | some n => if n = 0 then -1 else (n : Int)

/-- The in-place update the loop body applies to an existing dictionary
entry: `first` keeps the old triple, `last` takes the new one, `max_id`
replaces when `(prev[2] or -1) < (oid or -1)` (strict, so ties keep the
earlier occurrence). -/
def updateSel (keep : KeepPolicy) (prev cur : Sel) : Sel :=
  match keep with
  | .first => prev
  | .last => cur
  | .maxId => if pyOrNeg1 prev.2.2 < pyOrNeg1 cur.2.2 then cur else prev

/-- The `selected` dict, as an insertion-ordered association list (Python
dicts preserve the insertion order of keys; updating a value keeps the
key's position). -/
def dictInsert (keep : KeepPolicy) (m : List (CanonKey × Sel))
    (k : CanonKey) (cur : Sel) : List (CanonKey × Sel) :=
  if m.any (fun kv => decide (kv.1 = k)) then
    m.map (fun kv => if kv.1 = k then (kv.1, updateSel keep kv.2 cur) else kv)
  else m ++ [(k, cur)]

/-- The `for idx, u in enumerate(urls):` loop of `dedupe_pracuj_urls`. -/
def buildDict (keep : KeepPolicy) (m : List (CanonKey × Sel)) (n : Nat) :
    List String → List (CanonKey × Sel)
  | [] => m
  | u :: us =>
    buildDict keep (dictInsert keep m (keyOf u) (selOf n u)) (n + 1) us

/-- Stable insertion into an index-sorted list (equal indices keep the
existing element first, as Python's stable `sorted`; the indices stored in
the dict are pairwise distinct anyway). -/
def insertByIdx (x : Sel) : List Sel → List Sel
  | [] => [x]
  | y :: ys => if x.1 < y.1 then x :: y :: ys else y :: insertByIdx x ys

/-- `sorted(selected.values(), key=lambda t: t[0])`. -/
def sortByIdx (l : List Sel) : List Sel :=
  l.foldr insertByIdx []

/-- Embedding of `PracujPl.dedupe_pracuj_urls`: build the `selected` dict,
sort its values by stored index, and return their urls. -/
def dedupe_pracuj_urls (urls : List String) (keep : KeepPolicy) :
    List String :=
  (sortByIdx ((buildDict keep [] 0 urls).map (fun kv => kv.2))).map
    (fun s => s.2.1)

/-- Occurrences of key `k` among `urls`, as stored triples, counting input
indices from `n`. -/
def occsFrom (k : CanonKey) (n : Nat) : List String → List Sel
  | [] => []
  | u :: us =>
    if keyOf u = k then selOf n u :: occsFrom k (n + 1) us
    else occsFrom k (n + 1) us

/-- Keys in first-occurrence order, skipping those already `seen`. -/
def firstOccsAux (seen : List CanonKey) : List CanonKey → List CanonKey
  | [] => []
  | k :: ks =>
    if k ∈ seen then firstOccsAux seen ks
    else k :: firstOccsAux (k :: seen) ks

/-- Keys of the input in first-occurrence order. -/
def firstOccs (ks : List CanonKey) : List CanonKey :=
  firstOccsAux [] ks

/-- Folding the per-policy update over the later occurrences of a key,
starting from its first occurrence: the representative the dict ends up
storing for that key. -/
def selRepFrom (keep : KeepPolicy) (o : Sel) (os : List Sel) : Sel :=
  os.foldl (updateSel keep) o

/-- Representative triple of key `k` among `urls` (indices from `n`). -/
def repOfFrom (keep : KeepPolicy) (k : CanonKey) (n : Nat)
    (urls : List String) : Sel :=
  match occsFrom k n urls with
  | [] => (0, "", none)
  | o :: os => selRepFrom keep o os

/-- Representative triple of key `k` among `urls`. -/
def repOf (keep : KeepPolicy) (k : CanonKey) (urls : List String) : Sel :=
  repOfFrom keep k 0 urls

/-- Statement of claim C6's output order, written from the claim's words:
the representatives listed in the original first-occurrence order of their
canonical keys (not sorted by the representative's own index). -/
def dedupeSpecOrder (urls : List String) (keep : KeepPolicy) : List String :=
  (firstOccs (urls.map keyOf)).map (fun k => (repOf keep k urls).2.1)

/-! ## Lemmas about the `LIKE` matcher -/

theorem likeMatch_pct_nil (s : List Char) : likeMatch ['%'] s = true := by
  simp only [likeMatch, if_pos rfl]
  exact List.any_eq_true.mpr ⟨[], (List.mem_tails _ _).mpr List.nil_suffix, rfl⟩

theorem likeMatch_pct_skip (q pre t : List Char) (h : likeMatch q t = true) :
    likeMatch ('%' :: q) (pre ++ t) = true := by
  simp only [likeMatch, if_pos rfl]
  exact List.any_eq_true.mpr
    ⟨t, (List.mem_tails _ _).mpr (List.suffix_append pre t), h⟩

theorem likeMatch_lit (u : List Char) :
    ∀ p s, likeMatch p s = true → likeMatch (u ++ p) (u ++ s) = true := by
  induction u with
  | nil => intro p s h; simpa using h
  | cons c u ih =>
    intro p s h
    by_cases hc : c = '%'
    · subst hc
      simp only [List.cons_append, likeMatch, if_pos rfl]
      exact List.any_eq_true.mpr
        ⟨u ++ s,
         (List.mem_tails _ _).mpr ((List.suffix_cons '%' (u ++ s))),
         ih p s h⟩
    · simp only [List.cons_append, likeMatch, if_neg hc]
      simp [ih p s h]

theorem likeMatch_of_infix (u t : List Char) (h : u <:+: t) :
    likeMatch ('%' :: (u ++ ['%'])) t = true := by
  obtain ⟨pre, suf, hpre⟩ := h
  have hmid : likeMatch (u ++ ['%']) (u ++ suf) = true :=
    likeMatch_lit u ['%'] suf (likeMatch_pct_nil suf)
  have := likeMatch_pct_skip (u ++ ['%']) pre (u ++ suf) hmid
  rwa [← List.append_assoc, hpre] at this

theorem pattern_data (u : String) :
    ("%" ++ u ++ "%").data = '%' :: (u.data ++ ['%']) := by
  simp

/-! ## C3: duplicate insertion -/

/-- C3: inserting a JobOffer twice with the same url leaves exactly one row:
the second `insert_job_offer` call returns the store unchanged, reports only
a logged uniqueness violation (it does not raise), and exactly one row with
that url remains. -/
theorem C3_duplicate_insert_keeps_one_row (t : JobsTable) (job : JobOffer)
    (h : countUrl t job.url = 0) :
    (insert_job_offer (insert_job_offer t job).1 job).1 =
        (insert_job_offer t job).1 ∧
    (insert_job_offer (insert_job_offer t job).1 job).2 = true ∧
    (insert_job_offer t job).2 = false ∧
    countUrl (insert_job_offer (insert_job_offer t job).1 job).1 job.url = 1 := by
  have hnil : t.rows.filter (fun r => r.url == job.url) = [] := by
    simp only [countUrl] at h
    exact List.length_eq_zero.mp h
  have hany : t.rows.any (fun r => r.url == job.url) = false := by
    rw [← Bool.not_eq_true, List.any_eq_true]
    rintro ⟨x, hx, hpx⟩
    have hmem : x ∈ t.rows.filter (fun r => r.url == job.url) :=
      List.mem_filter.mpr ⟨hx, hpx⟩
    rw [hnil] at hmem
    exact absurd hmem (List.not_mem_nil x)
  simp [insert_job_offer, hany, countUrl, List.filter_append, hnil]

/-- Witness for C3 at a concrete empty store and offer. -/
theorem C3_duplicate_insert_keeps_one_row_witness :
    countUrl { rows := [], nextId := 1 }
      (JobOffer.url { name := "n", date := 0, source := "s",
                      url := "https://x/1", description := "d" }) = 0 ∧
    (countUrl (insert_job_offer
        (insert_job_offer { rows := [], nextId := 1 }
          { name := "n", date := 0, source := "s",
            url := "https://x/1", description := "d" }).1
        { name := "n", date := 0, source := "s",
          url := "https://x/1", description := "d" }).1
      (JobOffer.url { name := "n", date := 0, source := "s",
                      url := "https://x/1", description := "d" }) = 1) :=
  ⟨by decide,
   (C3_duplicate_insert_keeps_one_row { rows := [], nextId := 1 }
      { name := "n", date := 0, source := "s",
        url := "https://x/1", description := "d" } (by decide)).2.2.2⟩

/-! ## C10: the already-seen pre-filter -/

/-- C10 (amended): the pre-filter is a SQLite `LIKE` test, not a literal
substring test: a discovered url `u` is kept exactly when no stored row's
url LIKE-matches the pattern `%u%` (ASCII case-insensitive, with `%`/`_` of
`u` acting as wildcards).  Consequently a url that occurs literally as a
substring of some stored row's url is dropped, and the empty url is dropped
whenever the store is non-empty. -/
theorem filter_mem_iff (t : JobsTable) (urls : List String) (u : String) :
    u ∈ filter_only_not_analyzed_urls t urls ↔
      u ∈ urls ∧
        ∀ r ∈ t.rows, likeMatch ('%' :: (u.data ++ ['%'])) r.url.data = false := by
  simp only [filter_only_not_analyzed_urls, List.mem_filter, search_jobs,
    pattern_data]
  constructor
  · rintro ⟨hu, hpred⟩
    refine ⟨hu, fun r hr => ?_⟩
    have hlen :
        (t.rows.filter
          (fun r => likeMatch ('%' :: (u.data ++ ['%'])) r.url.data)).length
          = 0 := by
      simpa [pattern_data] using hpred
    have hnil := List.length_eq_zero.mp hlen
    by_contra hne
    have htrue : likeMatch ('%' :: (u.data ++ ['%'])) r.url.data = true := by
      revert hne; cases likeMatch ('%' :: (u.data ++ ['%'])) r.url.data <;> simp
    have : r ∈ t.rows.filter
        (fun r => likeMatch ('%' :: (u.data ++ ['%'])) r.url.data) :=
      List.mem_filter.mpr ⟨hr, htrue⟩
    rw [hnil] at this
    exact absurd this (List.not_mem_nil r)
  · rintro ⟨hu, hall⟩
    refine ⟨hu, ?_⟩
    have hnil : t.rows.filter
        (fun r => likeMatch ('%' :: (u.data ++ ['%'])) r.url.data) = [] := by
      apply List.filter_eq_nil_iff.mpr
      intro r hr
      simp [hall r hr]
    simp [pattern_data, hnil]

theorem C10_filter_is_like_test (t : JobsTable) (urls : List String)
    (u : String) :
    (u ∈ filter_only_not_analyzed_urls t urls ↔
      u ∈ urls ∧
        ∀ r ∈ t.rows, likeMatch ("%" ++ u ++ "%").data r.url.data = false) ∧
    ((∃ r ∈ t.rows, u.data <:+: r.url.data) →
      u ∉ filter_only_not_analyzed_urls t urls) ∧
    (t.rows ≠ [] → "" ∉ filter_only_not_analyzed_urls t urls) := by
  refine ⟨by simpa [pattern_data] using filter_mem_iff t urls u, ?_, ?_⟩
  · rintro ⟨r, hr, hinf⟩ hmem
    have hall := ((filter_mem_iff t urls u).mp hmem).2 r hr
    have htrue : likeMatch ('%' :: (u.data ++ ['%'])) r.url.data = true :=
      likeMatch_of_infix u.data r.url.data hinf
    rw [hall] at htrue
    exact Bool.false_ne_true htrue
  · intro hne hmem
    obtain ⟨r, hr⟩ := List.exists_mem_of_ne_nil t.rows hne
    have hall := ((filter_mem_iff t urls "").mp hmem).2 r hr
    have htrue : likeMatch ('%' :: (("".data : List Char) ++ ['%'])) r.url.data
        = true :=
      likeMatch_of_infix "".data r.url.data List.nil_infix
    rw [hall] at htrue
    exact Bool.false_ne_true htrue

/-- Counterexample to C10 as stated: with one stored row whose url is `"A"`,
the discovered url `"a"` is dropped by the code (LIKE is ASCII
case-insensitive) although `"a"` is not a literal substring of `"A"`, so the
pre-filter is not the claimed substring test. -/
theorem C10_counterexample :
    filter_only_not_analyzed_urls
        { rows := [{ id := 1, source := "s", name := "n", url := "A",
                     description := "", analysis := "",
                     offer_rating := 0, candidate_rating := 0 }],
          nextId := 2 } ["a"] = [] ∧
    filterBySubstring
        { rows := [{ id := 1, source := "s", name := "n", url := "A",
                     description := "", analysis := "",
                     offer_rating := 0, candidate_rating := 0 }],
          nextId := 2 } ["a"] = ["a"] := by
  decide

/-- Witness for C10 at a concrete store: `"a"` is a substring of the stored
url `"xax"`, so the filter drops it. -/
theorem C10_filter_is_like_test_witness :
    "a" ∉ filter_only_not_analyzed_urls
        { rows := [{ id := 1, source := "s", name := "n", url := "xax",
                     description := "", analysis := "",
                     offer_rating := 0, candidate_rating := 0 }],
          nextId := 2 } ["a"] :=
  (C10_filter_is_like_test
      { rows := [{ id := 1, source := "s", name := "n", url := "xax",
                   description := "", analysis := "",
                   offer_rating := 0, candidate_rating := 0 }],
        nextId := 2 } ["a"] "a").2.1
    ⟨{ id := 1, source := "s", name := "n", url := "xax",
       description := "", analysis := "",
       offer_rating := 0, candidate_rating := 0 },
     by decide, by decide⟩

/-! ## C4 and C5: the retry loop of `_read_job_descritpion` -/

/-- C4 (amended): a clean miss does not stop the retry loop: after an
attempt that returns no content without timing out, the loop proceeds to
the next attempt (without reloading the page); when every attempt is a
clean miss, all 3 configured attempts are made, no reload happens, and
absence is returned. -/
theorem C4_clean_miss_keeps_retrying (behavior : Nat → ExtractOutcome)
    (h : ∀ i, ∃ r, behavior i = .result r ∧ pyTruthy r = false) :
    read_job_descritpion behavior 3 =
      { description := none, attemptsMade := 3, reloads := 0 } := by
  obtain ⟨r0, h0, t0⟩ := h 0
  obtain ⟨r1, h1, t1⟩ := h 1
  obtain ⟨r2, h2, t2⟩ := h 2
  simp [read_job_descritpion, readLoop, h0, h1, h2, t0, t1, t2]

/-- Witness for C4 with every attempt returning Python `None`. -/
theorem C4_clean_miss_keeps_retrying_witness :
    read_job_descritpion (fun _ => .result none) 3 =
      { description := none, attemptsMade := 3, reloads := 0 } :=
  C4_clean_miss_keeps_retrying (fun _ => .result none)
    (fun _ => ⟨none, rfl, rfl⟩)

/-- Counterexample to C4 as stated: with every attempt a clean miss (the
extractor returns `None` without timing out), the loop makes 3 extraction
attempts, not 1, so a clean miss does not stop retrying immediately. -/
theorem C4_counterexample :
    read_job_descritpion (fun _ => .result none) 3 =
      { description := none, attemptsMade := 3, reloads := 0 } ∧
    (3 : Nat) ≠ 1 := by
  decide

/-- C5: when every attempt raises the timeout error, `_read_job_descritpion`
makes exactly the configured bound of 3 attempts, reloading the page between
attempts (2 reloads), then returns absence.  The embedded loop is a total
structurally recursive function, so it terminates on every behavior. -/
theorem C5_all_timeouts_three_attempts (behavior : Nat → ExtractOutcome)
    (h : ∀ i, behavior i = .timeout) :
    read_job_descritpion behavior 3 =
      { description := none, attemptsMade := 3, reloads := 2 } := by
  simp [read_job_descritpion, readLoop, h 0, h 1, h 2]

/-- Witness for C5 with the always-timeout behavior. -/
theorem C5_all_timeouts_three_attempts_witness :
    read_job_descritpion (fun _ => .timeout) 3 =
      { description := none, attemptsMade := 3, reloads := 2 } :=
  C5_all_timeouts_three_attempts (fun _ => .timeout) (fun _ => rfl)

/-! ## C7: no deduplication across seeds -/

theorem extract_jobs_urls_go (rs : List (Option (List String))) :
    ∀ acc, rs.foldl
        (fun acc r =>
          match r with
          | some l => acc ++ l
          | none => acc) acc = acc ++ (rs.filterMap id).flatten := by
  induction rs with
  | nil => intro acc; simp
  | cons r rs ih =>
    intro acc
    cases r with
    | none => simpa using ih acc
    | some l => simp [ih (acc ++ l)]

/-- C7 (amended): `extract_jobs_urls` concatenates the per-seed discovery
results without cross-seed deduplication — a URL discovered from two seeds
appears once per seed; only the per-seed set conversion inside
`scroll_and_collect` removes duplicates, so each single seed's list is
duplicate-free. -/
theorem C7_union_is_concatenation :
    (∀ rs : List (Option (List String)),
      extract_jobs_urls rs = (rs.filterMap id).flatten) ∧
    (∀ c : List String, (scroll_and_collect c).Nodup) := by
  constructor
  · intro rs
    simpa using extract_jobs_urls_go rs []
  · intro c
    exact List.nodup_dedup c

/-- Counterexample to C7 as stated: the same URL discovered from two
different seeds appears twice in the returned list. -/
theorem C7_counterexample :
    extract_jobs_urls [some ["u"], some ["u"]] = ["u", "u"] ∧
    ¬ (extract_jobs_urls [some ["u"], some ["u"]]).Nodup := by
  decide

/-! ## C2: which adapters implement the abstract patterns -/

/-- C2 is a code bug: the shared orchestrator dispatches on the abstract
methods `_url_extractor_pattern` and `_job_description_extractor_pattern`,
but `JustJoinIt` and `Hexagon` define `url_extractor_pattern` and
`job_description_extractor_pattern` (no leading underscore), so neither
overrides the abstract members and ABCMeta refuses to construct them;
only `PracujPl` implements both patterns. -/
theorem C2_two_adapters_do_not_implement_patterns :
    implementsAbstractPatterns .pracujPl = true ∧
    implementsAbstractPatterns .justJoinIt = false ∧
    implementsAbstractPatterns .hexagon = false := by
  decide

/-! ## C9: the semaphore bounds simultaneous fetching -/

theorem countP_set_phase (p : TaskPhase → Bool) :
    ∀ (l : List TaskPhase) (i : Nat) (h : i < l.length) (v : TaskPhase),
      (l.set i v).countP p + (if p (l.get ⟨i, h⟩) then 1 else 0) =
        l.countP p + (if p v then 1 else 0) := by
  intro l
  induction l with
  | nil => intro i h v; simp at h
  | cons a l ih =>
    intro i h v
    cases i with
    | zero =>
      simp [List.countP_cons]
      omega
    | succ i =>
      have hlt : i < l.length := by simpa using h
      have hih := ih i hlt v
      simp [List.countP_cons] at hih ⊢
      omega

theorem pool_invariant (W M : Nat) (s : PoolState)
    (h : PoolReachable W M s) :
    s.tasks.countP holdsSem + s.sem = W := by
  induction h with
  | init =>
    have hz : (List.replicate M TaskPhase.waiting).countP holdsSem = 0 := by
      apply List.countP_eq_zero.mpr
      intro a ha
      rw [List.eq_of_mem_replicate ha]
      simp [holdsSem]
    simp [hz]
  | step hr hstep ih =>
    rename_i s t
    cases hstep with
    | acquire i h hw n hs =>
      have hc := countP_set_phase holdsSem s.tasks i h .acquired
      rw [hw] at hc
      simp [holdsSem] at hc
      dsimp only
      omega
    | openPage i h hw =>
      have hc := countP_set_phase holdsSem s.tasks i h .pageOpen
      rw [hw] at hc
      simp [holdsSem] at hc
      dsimp only
      omega
    | closePage i h hw =>
      have hc := countP_set_phase holdsSem s.tasks i h .pageClosed
      rw [hw] at hc
      simp [holdsSem] at hc
      dsimp only
      omega
    | release i h hw =>
      have hc := countP_set_phase holdsSem s.tasks i h .done
      rw [hw] at hc
      simp [holdsSem] at hc
      dsimp only
      omega
    | abortFetch i h hw =>
      have hc := countP_set_phase holdsSem s.tasks i h .done
      rw [hw] at hc
      simp [holdsSem] at hc
      dsimp only
      omega

/-- C9: in every state reachable during a batch with worker limit `W`, at
most `W` tasks have their page open: each task enters the shared semaphore
before opening its page and holds it until the page is closed. -/
theorem C9_fetching_bounded_by_worker_limit (W M : Nat) (s : PoolState)
    (h : PoolReachable W M s) :
    s.tasks.countP isFetching ≤ W := by
  have hinv := pool_invariant W M s h
  have hmono : s.tasks.countP isFetching ≤ s.tasks.countP holdsSem := by
    apply List.countP_mono_left
    intro a _ hp
    cases a <;> simp_all [isFetching, holdsSem]
  omega

/-- Witness for C9: with worker limit 1 and 2 pending URLs, the state that
acquired the semaphore and opened the first page is reachable and has one
fetching task, within the bound. -/
theorem C9_fetching_bounded_by_worker_limit_witness :
    (PoolState.tasks
        { sem := 0, tasks := [TaskPhase.pageOpen, TaskPhase.waiting] }).countP
      isFetching ≤ 1 :=
  C9_fetching_bounded_by_worker_limit 1 2 _
    (PoolReachable.step
      (PoolReachable.step PoolReachable.init
        (PoolStep.acquire
          { sem := 1, tasks := List.replicate 2 .waiting } 0
          (by decide) rfl 0 rfl))
      (PoolStep.openPage
        { sem := 0, tasks := [TaskPhase.acquired, TaskPhase.waiting] } 0
        (by decide) rfl))

/-! ## C1: what a BotBlocked batch surfaces -/

theorem batch_fold_go (done : List FetchOutcome) :
    ∀ acc : BatchResult,
      done.foldl
        (fun acc o =>
          match o with
          | .ok offer => { acc with results := acc.results ++ [offer] }
          | .noOffer => acc
          | .botBlocked =>
            { acc with cancelledPending := true, awaitedPending := true }
          | .targetClosed =>
            { acc with cancelledPending := true, awaitedPending := true }
          | .otherError => acc) acc =
      { results := acc.results ++ done.filterMap offerOf,
        cancelledPending := acc.cancelledPending || done.any isCancelTrigger,
        awaitedPending := acc.awaitedPending || done.any isCancelTrigger } := by
  induction done with
  | nil => intro acc; simp
  | cons o done ih =>
    intro acc
    cases o <;> simp [offerOf, isCancelTrigger, ih]

/-- C1 (amended): when a fetch in the batch raises the BotBlocked condition,
every pending fetch is cancelled and awaited, but the exception is swallowed
inside the collection loop: the batch returns the partial list of JobOffers
assembled from the already-completed fetches, and the caller of
`perform_full_extraction` receives that partial list, not the BotBlocked
condition. -/
theorem C1_botblock_cancels_but_returns_partial (done : List FetchOutcome)
    (h : FetchOutcome.botBlocked ∈ done) :
    (extract_jobs_details_from_urls done).cancelledPending = true ∧
    (extract_jobs_details_from_urls done).awaitedPending = true ∧
    perform_full_extraction done = Surfaced.value (done.filterMap offerOf) := by
  have hany : done.any isCancelTrigger = true :=
    List.any_eq_true.mpr ⟨.botBlocked, h, rfl⟩
  simp [extract_jobs_details_from_urls, perform_full_extraction,
    batch_fold_go, hany]

/-- Witness for C1 at a concrete two-outcome batch. -/
theorem C1_botblock_cancels_but_returns_partial_witness :
    (extract_jobs_details_from_urls
        [FetchOutcome.ok { name := "t", date := 0, source := "s",
                           url := "u", description := "d" },
         FetchOutcome.botBlocked]).cancelledPending = true ∧
    (extract_jobs_details_from_urls
        [FetchOutcome.ok { name := "t", date := 0, source := "s",
                           url := "u", description := "d" },
         FetchOutcome.botBlocked]).awaitedPending = true ∧
    perform_full_extraction
        [FetchOutcome.ok { name := "t", date := 0, source := "s",
                           url := "u", description := "d" },
         FetchOutcome.botBlocked] =
      Surfaced.value
        ([FetchOutcome.ok { name := "t", date := 0, source := "s",
                            url := "u", description := "d" },
          FetchOutcome.botBlocked].filterMap offerOf) :=
  C1_botblock_cancels_but_returns_partial
    [FetchOutcome.ok { name := "t", date := 0, source := "s",
                       url := "u", description := "d" },
     FetchOutcome.botBlocked] (by decide)

/-- Counterexample to C1 as stated: a batch whose `done` set holds one
assembled offer and one BotBlocked fetch surfaces the partial list
`.ok [offer]` to the caller, while the claim demands the BotBlocked
condition itself. -/
theorem C1_counterexample :
    perform_full_extraction
        [FetchOutcome.ok { name := "t", date := 0, source := "s",
                           url := "u", description := "d" },
         FetchOutcome.botBlocked] =
      Surfaced.value
        [{ name := "t", date := 0, source := "s",
           url := "u", description := "d" }] ∧
    performFullExtractionClaim
        [FetchOutcome.ok { name := "t", date := 0, source := "s",
                           url := "u", description := "d" },
         FetchOutcome.botBlocked] = Surfaced.botBlockedSignal ∧
    perform_full_extraction
        [FetchOutcome.ok { name := "t", date := 0, source := "s",
                           url := "u", description := "d" },
         FetchOutcome.botBlocked] ≠
      performFullExtractionClaim
        [FetchOutcome.ok { name := "t", date := 0, source := "s",
                           url := "u", description := "d" },
         FetchOutcome.botBlocked] := by
  decide

/-! ## C8: response repair -/

/-- C8: `clean_deepseek_response` strips the think block, extracts the first
JSON-looking substring, repairs it (trailing comma removed) and strictly
parses it: on the spec's example input it yields a structure whose
`ocena_oferty` is 80; and whenever no JSON-looking substring exists, or the
repaired substring still fails the strict parse, the cleaned text itself is
returned instead of discarding the response. -/
theorem C8_response_repair :
    (clean_deepseek_response
        "<think>I think.</think>\x7b\"ocena_oferty\":80,\x7d" =
      Sum.inl (Json.obj [("ocena_oferty", Json.num 80)])) ∧
    (∀ s : String,
      (extractJsonPart (stripThink s.data) = none →
        clean_deepseek_response s = Sum.inr (String.mk (stripThink s.data))) ∧
      (∀ m, extractJsonPart (stripThink s.data) = some m →
        jsonLoads (repair_json m) = none →
        clean_deepseek_response s = Sum.inr (String.mk (repair_json m)))) := by
  refine ⟨rfl, fun s => ⟨?_, ?_⟩⟩
  · intro h
    simp [clean_deepseek_response, h]
  · intro m hm hparse
    simp [clean_deepseek_response, hm, hparse]

/-- Witness for C8's fallback clauses: an input with no braces comes back
unchanged, and an extracted-but-unparsable object comes back as the
repaired text. -/
theorem C8_response_repair_witness :
    clean_deepseek_response "no json here" = Sum.inr "no json here" ∧
    clean_deepseek_response "\x7b:\x7d" = Sum.inr "\x7b:\x7d" :=
  ⟨(C8_response_repair.2 "no json here").1 (by rfl),
   (C8_response_repair.2 "\x7b:\x7d").2 "\x7b:\x7d".data (by rfl) (by rfl)⟩

/-! ## C6: lemmas about the dedup dictionary -/

theorem occsFrom_cons_eq {k : CanonKey} {u : String} (us : List String)
    (n : Nat) (h : keyOf u = k) :
    occsFrom k n (u :: us) = selOf n u :: occsFrom k (n + 1) us := by
  simp [occsFrom, h]

theorem occsFrom_cons_ne {k : CanonKey} {u : String} (us : List String)
    (n : Nat) (h : ¬ keyOf u = k) :
    occsFrom k n (u :: us) = occsFrom k (n + 1) us := by
  simp [occsFrom, h]

theorem selRepFrom_cons (keep : KeepPolicy) (o c : Sel) (os : List Sel) :
    selRepFrom keep o (c :: os) = selRepFrom keep (updateSel keep o c) os :=
  rfl

theorem mapFst_update (m : List (CanonKey × Sel)) (k : CanonKey)
    (f : Sel → Sel) :
    (m.map (fun kv => if kv.1 = k then (kv.1, f kv.2) else kv)).map
        (fun kv => kv.1) =
      m.map (fun kv => kv.1) := by
  induction m with
  | nil => simp
  | cons kv m ih =>
    by_cases h : kv.1 = k <;> simp [h, ih]

theorem firstOccsAux_congr (ks : List CanonKey) :
    ∀ s1 s2 : List CanonKey, (∀ x, x ∈ s1 ↔ x ∈ s2) →
      firstOccsAux s1 ks = firstOccsAux s2 ks := by
  induction ks with
  | nil => intro s1 s2 _; rfl
  | cons k ks ih =>
    intro s1 s2 hs
    by_cases h : k ∈ s1
    · have h2 : k ∈ s2 := (hs k).mp h
      simp [firstOccsAux, h, h2, ih s1 s2 hs]
    · have h2 : k ∉ s2 := fun hk => h ((hs k).mpr hk)
      have hs2 : ∀ x, x ∈ k :: s1 ↔ x ∈ k :: s2 := by
        intro x
        simp [List.mem_cons, hs x]
      simp [firstOccsAux, h, h2, ih (k :: s1) (k :: s2) hs2]

theorem mem_firstOccsAux (ks : List CanonKey) :
    ∀ (seen : List CanonKey) (x : CanonKey),
      x ∈ firstOccsAux seen ks → x ∉ seen ∧ x ∈ ks := by
  induction ks with
  | nil => intro seen x hx; simp [firstOccsAux] at hx
  | cons k ks ih =>
    intro seen x hx
    by_cases h : k ∈ seen
    · simp only [firstOccsAux, if_pos h] at hx
      obtain ⟨h1, h2⟩ := ih seen x hx
      exact ⟨h1, List.mem_cons_of_mem k h2⟩
    · simp only [firstOccsAux, if_neg h] at hx
      rcases List.mem_cons.mp hx with hk | hk
      · subst hk
        exact ⟨h, List.mem_cons_self x ks⟩
      · obtain ⟨h1, h2⟩ := ih (k :: seen) x hk
        exact ⟨fun hc => h1 (List.mem_cons_of_mem k hc),
               List.mem_cons_of_mem k h2⟩

theorem buildDict_eq (keep : KeepPolicy) :
    ∀ (urls : List String) (n : Nat) (m : List (CanonKey × Sel)),
      buildDict keep m n urls =
        m.map (fun kv => (kv.1, selRepFrom keep kv.2 (occsFrom kv.1 n urls)))
          ++ (firstOccsAux (m.map (fun kv => kv.1)) (urls.map keyOf)).map
               (fun k => (k, repOfFrom keep k n urls)) := by
  intro urls
  induction urls with
  | nil =>
    intro n m
    simp [buildDict, occsFrom, selRepFrom, firstOccsAux]
  | cons u us ih =>
    intro n m
    show buildDict keep (dictInsert keep m (keyOf u) (selOf n u)) (n + 1) us
        = _
    rw [ih]
    by_cases hk : m.any (fun kv => decide (kv.1 = keyOf u)) = true
    · -- the key is already present: the entry is updated in place
      have hmem : keyOf u ∈ m.map (fun kv => kv.1) := by
        obtain ⟨kv, hkv, hp⟩ := List.any_eq_true.mp hk
        exact List.mem_map.mpr ⟨kv, hkv, of_decide_eq_true hp⟩
      have hin : dictInsert keep m (keyOf u) (selOf n u) =
          m.map (fun kv =>
            if kv.1 = keyOf u then
              (kv.1, updateSel keep kv.2 (selOf n u))
            else kv) := by
        simp [dictInsert, hk]
      rw [hin,
        mapFst_update m (keyOf u) (fun s => updateSel keep s (selOf n u))]
      have hfo : firstOccsAux (m.map (fun kv => kv.1))
            ((u :: us).map keyOf) =
          firstOccsAux (m.map (fun kv => kv.1)) (us.map keyOf) := by
        simp [firstOccsAux, hmem]
      rw [hfo]
      congr 1
      · rw [List.map_map]
        apply List.map_congr_left
        intro kv _
        simp only [Function.comp]
        by_cases hkv : kv.1 = keyOf u
        · rw [if_pos hkv]
          dsimp only
          rw [hkv, occsFrom_cons_eq us n rfl, selRepFrom_cons]
        · rw [if_neg hkv]
          rw [occsFrom_cons_ne us n (fun hc => hkv hc.symm)]
      · apply List.map_congr_left
        intro k hkmem
        have hne : ¬ keyOf u = k := by
          intro hc
          exact (mem_firstOccsAux (us.map keyOf)
            (m.map (fun kv => kv.1)) k hkmem).1 (hc ▸ hmem)
        simp only [repOfFrom, occsFrom_cons_ne us n hne]
    · -- new key: appended at the end of the dict
      have hnot : keyOf u ∉ m.map (fun kv => kv.1) := by
        intro hmem
        obtain ⟨kv, hkv, hp⟩ := List.mem_map.mp hmem
        exact hk (List.any_eq_true.mpr ⟨kv, hkv, decide_eq_true hp⟩)
      have hin : dictInsert keep m (keyOf u) (selOf n u) =
          m ++ [(keyOf u, selOf n u)] := by
        simp only [dictInsert, if_neg hk]
      rw [hin]
      have hfo : firstOccsAux (m.map (fun kv => kv.1))
            ((u :: us).map keyOf) =
          keyOf u ::
            firstOccsAux (keyOf u :: m.map (fun kv => kv.1))
              (us.map keyOf) := by
        simp [firstOccsAux, hnot]
      rw [hfo]
      have hseen : firstOccsAux
            ((m ++ [(keyOf u, selOf n u)]).map (fun kv => kv.1))
            (us.map keyOf) =
          firstOccsAux (keyOf u :: m.map (fun kv => kv.1))
            (us.map keyOf) := by
        apply firstOccsAux_congr
        intro x
        simp [List.mem_append, List.mem_cons, or_comm]
      rw [hseen]
      have hmapm : (m ++ [(keyOf u, selOf n u)]).map
            (fun kv => (kv.1, selRepFrom keep kv.2 (occsFrom kv.1 (n + 1) us)))
          = m.map (fun kv =>
              (kv.1, selRepFrom keep kv.2 (occsFrom kv.1 (n + 1) us)))
            ++ [(keyOf u,
                 selRepFrom keep (selOf n u) (occsFrom (keyOf u) (n + 1) us))]
          := by
        simp
      rw [hmapm]
      have hmF : m.map (fun kv =>
            (kv.1, selRepFrom keep kv.2 (occsFrom kv.1 (n + 1) us)))
          = m.map (fun kv =>
            (kv.1, selRepFrom keep kv.2 (occsFrom kv.1 n (u :: us)))) := by
        apply List.map_congr_left
        intro kv hkv
        have hne : ¬ keyOf u = kv.1 := by
          intro hc
          exact hnot (hc ▸ List.mem_map.mpr ⟨kv, hkv, rfl⟩)
        rw [occsFrom_cons_ne us n hne]
      rw [hmF]
      have hrep0 : repOfFrom keep (keyOf u) n (u :: us) =
          selRepFrom keep (selOf n u) (occsFrom (keyOf u) (n + 1) us) := by
        simp [repOfFrom, occsFrom_cons_eq us n rfl]
      have hrest : (firstOccsAux (keyOf u :: m.map (fun kv => kv.1))
              (us.map keyOf)).map
            (fun k => (k, repOfFrom keep k (n + 1) us))
          = (firstOccsAux (keyOf u :: m.map (fun kv => kv.1))
              (us.map keyOf)).map
            (fun k => (k, repOfFrom keep k n (u :: us))) := by
        apply List.map_congr_left
        intro k hkmem
        have hne : ¬ keyOf u = k := by
          intro hc
          have := (mem_firstOccsAux (us.map keyOf)
            (keyOf u :: m.map (fun kv => kv.1)) k hkmem).1
          exact this (hc ▸ List.mem_cons_self _ _)
        simp only [repOfFrom, occsFrom_cons_ne us n hne]
      rw [hrest]
      simp [hrep0]

theorem dedupe_eq_sorted (urls : List String) (keep : KeepPolicy) :
    dedupe_pracuj_urls urls keep =
      (sortByIdx ((firstOccs (urls.map keyOf)).map
        (fun k => repOf keep k urls))).map (fun s => s.2.1) := by
  unfold dedupe_pracuj_urls firstOccs repOf
  rw [buildDict_eq]
  simp only [List.map_nil, List.nil_append, List.map_map]
  rfl

theorem selRepFrom_first (os : List Sel) :
    ∀ o : Sel, selRepFrom .first o os = o := by
  induction os with
  | nil => intro o; rfl
  | cons x os ih =>
    intro o
    rw [selRepFrom_cons]
    exact ih _

theorem occsFrom_ge (k : CanonKey) :
    ∀ (us : List String) (n : Nat) (x : Sel),
      x ∈ occsFrom k n us → n ≤ x.1 := by
  intro us
  induction us with
  | nil => intro n x hx; simp [occsFrom] at hx
  | cons u us ih =>
    intro n x hx
    by_cases h : keyOf u = k
    · rw [occsFrom_cons_eq us n h] at hx
      rcases List.mem_cons.mp hx with hx | hx
      · subst hx; exact Nat.le_refl n
      · exact Nat.le_of_succ_le (ih (n + 1) x hx)
    · rw [occsFrom_cons_ne us n h] at hx
      exact Nat.le_of_succ_le (ih (n + 1) x hx)

theorem occsFrom_ne_nil (k : CanonKey) :
    ∀ (us : List String) (n : Nat), k ∈ us.map keyOf →
      occsFrom k n us ≠ [] := by
  intro us
  induction us with
  | nil => intro n h; simp at h
  | cons u us ih =>
    intro n hmem
    by_cases h : keyOf u = k
    · rw [occsFrom_cons_eq us n h]
      exact List.cons_ne_nil _ _
    · rw [occsFrom_cons_ne us n h]
      have hks : k ∈ us.map keyOf := by
        rcases (by simpa using hmem : k = keyOf u ∨ ∃ a ∈ us, keyOf a = k)
          with hc | ⟨a, ha, hak⟩
        · exact absurd hc.symm h
        · exact List.mem_map.mpr ⟨a, ha, hak⟩
      exact ih (n + 1) hks

theorem occsFrom_pairwise (k : CanonKey) :
    ∀ (us : List String) (n : Nat),
      (occsFrom k n us).Pairwise (fun a b => a.1 < b.1) := by
  intro us
  induction us with
  | nil => intro n; simp [occsFrom]
  | cons u us ih =>
    intro n
    by_cases h : keyOf u = k
    · rw [occsFrom_cons_eq us n h]
      refine List.Pairwise.cons ?_ (ih (n + 1))
      intro y hy
      have := occsFrom_ge k us (n + 1) y hy
      simp only [selOf]
      omega
    · rw [occsFrom_cons_ne us n h]
      exact ih (n + 1)

theorem firstOccs_reps_increasing :
    ∀ (urls : List String) (n : Nat) (seen : List CanonKey),
      (((firstOccsAux seen (urls.map keyOf)).map
        (fun k => repOfFrom .first k n urls))).Pairwise
          (fun a b => a.1 < b.1) := by
  intro urls
  induction urls with
  | nil => intro n seen; simp [firstOccsAux]
  | cons u us ih =>
    intro n seen
    by_cases h : keyOf u ∈ seen
    · have hfo : firstOccsAux seen ((u :: us).map keyOf) =
          firstOccsAux seen (us.map keyOf) := by
        simp [firstOccsAux, h]
      rw [hfo]
      have hmap : (firstOccsAux seen (us.map keyOf)).map
            (fun k => repOfFrom .first k n (u :: us)) =
          (firstOccsAux seen (us.map keyOf)).map
            (fun k => repOfFrom .first k (n + 1) us) := by
        apply List.map_congr_left
        intro k hkmem
        have hne : ¬ keyOf u = k := by
          intro hc
          exact (mem_firstOccsAux (us.map keyOf) seen k hkmem).1 (hc ▸ h)
        simp only [repOfFrom, occsFrom_cons_ne us n hne]
      rw [hmap]
      exact ih (n + 1) seen
    · have hfo : firstOccsAux seen ((u :: us).map keyOf) =
          keyOf u :: firstOccsAux (keyOf u :: seen) (us.map keyOf) := by
        simp [firstOccsAux, h]
      rw [hfo, List.map_cons]
      refine List.Pairwise.cons ?_ ?_
      · intro b hb
        obtain ⟨k, hkmem, hkb⟩ := List.mem_map.mp hb
        have hne : ¬ keyOf u = k := by
          intro hc
          exact (mem_firstOccsAux (us.map keyOf) (keyOf u :: seen) k
            hkmem).1 (hc ▸ List.mem_cons_self _ _)
        have hks : k ∈ us.map keyOf :=
          (mem_firstOccsAux (us.map keyOf) (keyOf u :: seen) k hkmem).2
        have hocc := occsFrom_ne_nil k us (n + 1) hks
        have hrep0 : repOfFrom .first (keyOf u) n (u :: us) = selOf n u := by
          simp [repOfFrom, occsFrom_cons_eq us n rfl, selRepFrom_first]
        have hrepk : repOfFrom .first k n (u :: us) =
            repOfFrom .first k (n + 1) us := by
          simp only [repOfFrom, occsFrom_cons_ne us n hne]
        rw [hrep0]
        rw [← hkb, hrepk]
        obtain ⟨o, os, hoc⟩ :
            ∃ o os, occsFrom k (n + 1) us = o :: os := by
          cases hx : occsFrom k (n + 1) us with
          | nil => exact absurd hx hocc
          | cons o os => exact ⟨o, os, rfl⟩
        have hge : n + 1 ≤ o.1 :=
          occsFrom_ge k us (n + 1) o (hoc ▸ List.mem_cons_self o os)
        have : repOfFrom .first k (n + 1) us = o := by
          simp [repOfFrom, hoc, selRepFrom_first]
        rw [this]
        simp only [selOf]
        omega
      · have hmap : (firstOccsAux (keyOf u :: seen) (us.map keyOf)).map
              (fun k => repOfFrom .first k n (u :: us)) =
            (firstOccsAux (keyOf u :: seen) (us.map keyOf)).map
              (fun k => repOfFrom .first k (n + 1) us) := by
          apply List.map_congr_left
          intro k hkmem
          have hne : ¬ keyOf u = k := by
            intro hc
            exact (mem_firstOccsAux (us.map keyOf) (keyOf u :: seen) k
              hkmem).1 (hc ▸ List.mem_cons_self _ _)
          simp only [repOfFrom, occsFrom_cons_ne us n hne]
        rw [hmap]
        exact ih (n + 1) (keyOf u :: seen)

theorem sortByIdx_of_increasing :
    ∀ l : List Sel, l.Pairwise (fun a b => a.1 < b.1) → sortByIdx l = l := by
  intro l
  induction l with
  | nil => intro _; rfl
  | cons a l ih =>
    intro hp
    have hs : sortByIdx (a :: l) = insertByIdx a (sortByIdx l) := rfl
    rw [hs, ih hp.tail]
    cases l with
    | nil => rfl
    | cons b l2 =>
      have hab : a.1 < b.1 :=
        (List.pairwise_cons.mp hp).1 b (List.mem_cons_self b l2)
      simp [insertByIdx, hab]

theorem selRep_maxId_spec :
    ∀ (os : List Sel) (o : Sel),
      (o :: os).Pairwise (fun a b => a.1 < b.1) →
      (selRepFrom .maxId o os = o ∨ selRepFrom .maxId o os ∈ os) ∧
      ∀ x ∈ o :: os,
        pyOrNeg1 x.2.2 ≤ pyOrNeg1 (selRepFrom .maxId o os).2.2 ∧
        (pyOrNeg1 x.2.2 = pyOrNeg1 (selRepFrom .maxId o os).2.2 →
          (selRepFrom .maxId o os).1 ≤ x.1) := by
  intro os
  induction os with
  | nil =>
    intro o _
    refine ⟨Or.inl rfl, ?_⟩
    intro x hx
    have hxo : x = o := by simpa using hx
    subst hxo
    exact ⟨le_refl _, fun _ => Nat.le_refl _⟩
  | cons c os ih =>
    intro o hp
    rw [selRepFrom_cons]
    have hoc : o.1 < c.1 :=
      (List.pairwise_cons.mp hp).1 c (List.mem_cons_self c os)
    have hoos : ∀ y ∈ os, o.1 < y.1 := fun y hy =>
      (List.pairwise_cons.mp hp).1 y (List.mem_cons_of_mem c hy)
    have hcos : ∀ y ∈ os, c.1 < y.1 := fun y hy =>
      (List.pairwise_cons.mp (List.pairwise_cons.mp hp).2).1 y hy
    have hpos : os.Pairwise (fun a b => a.1 < b.1) :=
      (List.pairwise_cons.mp (List.pairwise_cons.mp hp).2).2
    have hp2 : (updateSel .maxId o c :: os).Pairwise
        (fun a b => a.1 < b.1) := by
      refine List.pairwise_cons.mpr ⟨?_, hpos⟩
      intro y hy
      by_cases hlt : pyOrNeg1 o.2.2 < pyOrNeg1 c.2.2
      · simp only [updateSel, if_pos hlt]
        exact hcos y hy
      · simp only [updateSel, if_neg hlt]
        exact hoos y hy
    obtain ⟨hmem2, hbound2⟩ := ih (updateSel .maxId o c) hp2
    constructor
    · rcases hmem2 with h2 | h2
      · by_cases hlt : pyOrNeg1 o.2.2 < pyOrNeg1 c.2.2
        · have hc2 : updateSel .maxId o c = c := by
            simp only [updateSel, if_pos hlt]
          right
          rw [h2, hc2]
          exact List.mem_cons_self c os
        · have ho2 : updateSel .maxId o c = o := by
            simp only [updateSel, if_neg hlt]
          left
          rw [h2, ho2]
      · right
        exact List.mem_cons_of_mem c h2
    · intro x hx
      have hbase := hbound2 (updateSel .maxId o c)
        (List.mem_cons_self (updateSel .maxId o c) os)
      rcases List.mem_cons.mp hx with hxo | hx2
      · rw [hxo]
        by_cases hlt : pyOrNeg1 o.2.2 < pyOrNeg1 c.2.2
        · have hc2 : updateSel .maxId o c = c := by
            simp only [updateSel, if_pos hlt]
          rw [hc2] at hbase ⊢
          obtain ⟨hb1, hb2⟩ := hbase
          constructor
          · omega
          · intro htie
            omega
        · have ho2 : updateSel .maxId o c = o := by
            simp only [updateSel, if_neg hlt]
          rw [ho2] at hbase ⊢
          exact hbase
      · rcases List.mem_cons.mp hx2 with hxc | hxos
        · rw [hxc]
          by_cases hlt : pyOrNeg1 o.2.2 < pyOrNeg1 c.2.2
          · have hc2 : updateSel .maxId o c = c := by
              simp only [updateSel, if_pos hlt]
            rw [hc2] at hbase ⊢
            exact hbase
          · have ho2 : updateSel .maxId o c = o := by
              simp only [updateSel, if_neg hlt]
            rw [ho2] at hbase ⊢
            obtain ⟨hb1, hb2⟩ := hbase
            have hle : pyOrNeg1 c.2.2 ≤ pyOrNeg1 o.2.2 := not_lt.mp hlt
            constructor
            · omega
            · intro htie
              have hoeq : pyOrNeg1 o.2.2 =
                  pyOrNeg1 (selRepFrom .maxId o os).2.2 := by
                omega
              have hio := hb2 hoeq
              omega
        · exact hbound2 x (List.mem_cons_of_mem _ hxos)

theorem repOf_maxId_spec (urls : List String) (k : CanonKey)
    (h : occsFrom k 0 urls ≠ []) :
    repOf .maxId k urls ∈ occsFrom k 0 urls ∧
    ∀ x ∈ occsFrom k 0 urls,
      pyOrNeg1 x.2.2 ≤ pyOrNeg1 (repOf .maxId k urls).2.2 ∧
      (pyOrNeg1 x.2.2 = pyOrNeg1 (repOf .maxId k urls).2.2 →
        (repOf .maxId k urls).1 ≤ x.1) := by
  obtain ⟨o, os, hoc⟩ : ∃ o os, occsFrom k 0 urls = o :: os := by
    cases hx : occsFrom k 0 urls with
    | nil => exact absurd hx h
    | cons o os => exact ⟨o, os, rfl⟩
  have hpair := occsFrom_pairwise k urls 0
  rw [hoc] at hpair
  have hrep : repOf .maxId k urls = selRepFrom .maxId o os := by
    simp [repOf, repOfFrom, hoc]
  obtain ⟨hm, hb⟩ := selRep_maxId_spec os o hpair
  rw [hrep, hoc]
  constructor
  · rcases hm with h1 | h1
    · rw [h1]; exact List.mem_cons_self o os
    · exact List.mem_cons_of_mem o h1
  · exact hb

/-- C6 (amended): `dedupe_pracuj_urls` selects one representative per
canonical key per policy, but the output order is the ascending order of
the chosen representative's input index, not the first-occurrence order of
keys: under `first` (where the representative is the key's first
occurrence) the two orders coincide; under `last`/`max_id` a key whose
representative is a later occurrence moves behind keys with earlier
representatives.  Under `max_id` the representative of each key carries the
maximal id among the key's occurrences (ids compared after Python's
`or -1`, which treats the falsy id 0 like a missing one), ties keeping the
earliest occurrence. -/
theorem C6_dedupe_order_and_policy :
    (∀ (urls : List String) (keep : KeepPolicy),
      dedupe_pracuj_urls urls keep =
        (sortByIdx ((firstOccs (urls.map keyOf)).map
          (fun k => repOf keep k urls))).map (fun s => s.2.1)) ∧
    (∀ urls : List String,
      dedupe_pracuj_urls urls .first = dedupeSpecOrder urls .first) ∧
    (∀ (urls : List String) (k : CanonKey), occsFrom k 0 urls ≠ [] →
      repOf .maxId k urls ∈ occsFrom k 0 urls ∧
      ∀ x ∈ occsFrom k 0 urls,
        pyOrNeg1 x.2.2 ≤ pyOrNeg1 (repOf .maxId k urls).2.2 ∧
        (pyOrNeg1 x.2.2 = pyOrNeg1 (repOf .maxId k urls).2.2 →
          (repOf .maxId k urls).1 ≤ x.1)) := by
  refine ⟨fun urls keep => dedupe_eq_sorted urls keep,
          fun urls => ?_,
          fun urls k h => repOf_maxId_spec urls k h⟩
  rw [dedupe_eq_sorted urls .first]
  have hincr := firstOccs_reps_increasing urls 0 []
  rw [sortByIdx_of_increasing _ (by exact hincr)]
  rw [dedupeSpecOrder, List.map_map]
  rfl

/-- Counterexample to C6 as stated: under `max_id` the representative of
the first key is its later occurrence (index 2) and therefore sorts after
the second key's representative (index 1), so the output order is not the
first-occurrence order of the keys. -/
theorem C6_counterexample :
    dedupe_pracuj_urls
        ["https://www.pracuj.pl/praca/a,oferta,1",
         "https://www.pracuj.pl/praca/b,oferta,2",
         "https://www.pracuj.pl/praca/a,oferta,3"] .maxId =
      ["https://www.pracuj.pl/praca/b,oferta,2",
       "https://www.pracuj.pl/praca/a,oferta,3"] ∧
    dedupeSpecOrder
        ["https://www.pracuj.pl/praca/a,oferta,1",
         "https://www.pracuj.pl/praca/b,oferta,2",
         "https://www.pracuj.pl/praca/a,oferta,3"] .maxId =
      ["https://www.pracuj.pl/praca/a,oferta,3",
       "https://www.pracuj.pl/praca/b,oferta,2"] ∧
    dedupe_pracuj_urls
        ["https://www.pracuj.pl/praca/a,oferta,1",
         "https://www.pracuj.pl/praca/b,oferta,2",
         "https://www.pracuj.pl/praca/a,oferta,3"] .maxId ≠
      dedupeSpecOrder
        ["https://www.pracuj.pl/praca/a,oferta,1",
         "https://www.pracuj.pl/praca/b,oferta,2",
         "https://www.pracuj.pl/praca/a,oferta,3"] .maxId := by
  decide

/-- Witness for C6's `max_id` clause on a concrete url list. -/
theorem C6_dedupe_order_and_policy_witness :
    repOf .maxId (keyOf "https://www.pracuj.pl/praca/a,oferta,1")
        ["https://www.pracuj.pl/praca/a,oferta,1",
         "https://www.pracuj.pl/praca/b,oferta,2",
         "https://www.pracuj.pl/praca/a,oferta,3"] ∈
      occsFrom (keyOf "https://www.pracuj.pl/praca/a,oferta,1") 0
        ["https://www.pracuj.pl/praca/a,oferta,1",
         "https://www.pracuj.pl/praca/b,oferta,2",
         "https://www.pracuj.pl/praca/a,oferta,3"] :=
  (C6_dedupe_order_and_policy.2.2
      ["https://www.pracuj.pl/praca/a,oferta,1",
       "https://www.pracuj.pl/praca/b,oferta,2",
       "https://www.pracuj.pl/praca/a,oferta,3"]
      (keyOf "https://www.pracuj.pl/praca/a,oferta,1") (by decide)).1

end JobAnalyzer
